import Mathlib

/-!
Verification of the robust-counterpart constructions in the
Robust-optimization repository (RKP.py, Knapsack.py, P-median.py,
Set_covering.py).  Each model below is a shallow embedding of the MILP the
corresponding script hands to the solver; theorems settle the spec's claims
about those models.
-/

namespace RobustOpt

namespace Budgeted

/-!
The budgeted (Bertsimas–Sim) dualization emitted by `solve_robust_knapsack`
(RKP.py, lines 74–85) and by the `Robust_Capacity` block of Knapsack.py
(lines 44–67): continuous duals `gamma ≥ 0`, `chi_k ≥ 0` with
`gamma + chi_k ≥ deviations_k · x_k`, and the term `Γ·gamma + Σ chi_k`
added to the capacity row.  `z` is the (fixed) value of the selection
variables, as in the spec's §4.3.
-/

/-- Feasibility of the dual pair `(γ, χ)` in the system the robust capacity
constraint embeds: `γ ≥ 0`, `χ_k ≥ 0`, `γ + χ_k ≥ dev_k · z_k` for all `k`
(RKP.py lines 75–76 and 84–85). -/
def DualFeas (n : ℕ) (dev z : Fin n → ℝ) (γ : ℝ) (χ : Fin n → ℝ) : Prop :=
  0 ≤ γ ∧ (∀ k, 0 ≤ χ k) ∧ ∀ k, dev k * z k ≤ γ + χ k

/-- Values `Γ·γ + Σ_k χ_k` of the dualized slack term over feasible dual
pairs, for a fixed assignment `z`. -/
def dualSet (n : ℕ) (Γ : ℝ) (dev z : Fin n → ℝ) : Set ℝ :=
  {v | ∃ γ χ, DualFeas n dev z γ χ ∧ v = Γ * γ + ∑ k, χ k}

/-- Feasibility of an adversarial realization `ξ` in the budgeted
uncertainty set: `ξ_k ∈ [0,1]`, `Σ_k ξ_k ≤ Γ`. -/
def AdvFeas (n : ℕ) (Γ : ℝ) (ξ : Fin n → ℝ) : Prop :=
  (∀ k, 0 ≤ ξ k ∧ ξ k ≤ 1) ∧ ∑ k, ξ k ≤ Γ

/-- Values `Σ_k dev_k · z_k · ξ_k` of the adversarial (primal) objective
over the budgeted uncertainty set. -/
def advSet (n : ℕ) (Γ : ℝ) (dev z : Fin n → ℝ) : Set ℝ :=
  {v | ∃ ξ, AdvFeas n Γ ξ ∧ v = ∑ k, dev k * z k * ξ k}

/-- Weak duality: every adversarial value is at most every dual value. -/
lemma adv_le_dual {n : ℕ} {Γ : ℝ} {dev z : Fin n → ℝ} {v u : ℝ}
    (hv : v ∈ advSet n Γ dev z) (hu : u ∈ dualSet n Γ dev z) : v ≤ u := by
  obtain ⟨ξ, ⟨hbox, hbud⟩, rfl⟩ := hv
  obtain ⟨γ, χ, ⟨hγ, hχ, hcon⟩, rfl⟩ := hu
  have h1 : ∑ k, dev k * z k * ξ k ≤ ∑ k, (γ + χ k) * ξ k := by
    refine Finset.sum_le_sum fun k _ => ?_
    exact mul_le_mul_of_nonneg_right (hcon k) (hbox k).1
  have h2 : ∑ k, (γ + χ k) * ξ k = γ * ∑ k, ξ k + ∑ k, χ k * ξ k := by
    rw [Finset.mul_sum, ← Finset.sum_add_distrib]
    exact Finset.sum_congr rfl fun k _ => by ring
  have h3 : γ * ∑ k, ξ k ≤ γ * Γ := mul_le_mul_of_nonneg_left hbud hγ
  have h4 : ∑ k, χ k * ξ k ≤ ∑ k, χ k := by
    refine Finset.sum_le_sum fun k _ => ?_
    calc χ k * ξ k ≤ χ k * 1 := mul_le_mul_of_nonneg_left (hbox k).2 (hχ k)
    _ = χ k := mul_one _
  calc ∑ k, dev k * z k * ξ k ≤ γ * ∑ k, ξ k + ∑ k, χ k * ξ k := by
        rw [← h2]; exact h1
  _ ≤ γ * Γ + ∑ k, χ k := add_le_add h3 h4
  _ = Γ * γ + ∑ k, χ k := by ring

/-- The dual system is always feasible (take `γ` large enough, `χ = 0`). -/
lemma dualSet_nonempty (n : ℕ) (Γ : ℝ) (dev z : Fin n → ℝ) :
    (dualSet n Γ dev z).Nonempty := by
  refine ⟨Γ * (∑ k, max (dev k * z k) 0) + ∑ k : Fin n, (0:ℝ), ?_⟩
  refine ⟨∑ k, max (dev k * z k) 0, fun _ => 0, ⟨?_, fun k => le_refl 0, fun k => ?_⟩, rfl⟩
  · exact Finset.sum_nonneg fun k _ => le_max_right _ _
  · show dev k * z k ≤ (∑ j, max (dev j * z j) 0) + 0
    have h1 : dev k * z k ≤ max (dev k * z k) 0 := le_max_left _ _
    have h2 : max (dev k * z k) 0 ≤ ∑ j, max (dev j * z j) 0 :=
      Finset.single_le_sum (fun j _ => le_max_right (dev j * z j) 0) (Finset.mem_univ k)
    linarith

/-- When `Γ ≥ 0` every dual value is nonnegative, so the dual value set is
bounded below. -/
lemma dualSet_bddBelow (n : ℕ) {Γ : ℝ} (dev z : Fin n → ℝ) (hΓ : 0 ≤ Γ) :
    BddBelow (dualSet n Γ dev z) := by
  refine ⟨0, fun v hv => ?_⟩
  obtain ⟨γ, χ, ⟨hγ, hχ, _⟩, rfl⟩ := hv
  have : (0:ℝ) ≤ ∑ k, χ k := Finset.sum_nonneg fun k _ => hχ k
  have : (0:ℝ) ≤ Γ * γ := mul_nonneg hΓ hγ
  linarith [Finset.sum_nonneg fun (k : Fin n) (_ : k ∈ Finset.univ) => hχ k]

/-- At `Γ = 0` the dual objective ignores `γ`, and a large `γ` with `χ = 0`
is feasible, so the optimal value of the emitted system is `0`; likewise the
adversarial maximum at `Γ = 0` is `0` (no deviation budget). -/
lemma gammaZero_isLeast (n : ℕ) (dev z : Fin n → ℝ) :
    IsLeast (dualSet n 0 dev z) 0 ∧ IsGreatest (advSet n 0 dev z) 0 := by
  constructor
  · constructor
    · refine ⟨∑ k, max (dev k * z k) 0, fun _ => 0, ⟨?_, fun k => le_refl 0, fun k => ?_⟩, by simp⟩
      · exact Finset.sum_nonneg fun k _ => le_max_right _ _
      · show dev k * z k ≤ (∑ j, max (dev j * z j) 0) + 0
        have h1 : dev k * z k ≤ max (dev k * z k) 0 := le_max_left _ _
        have h2 : max (dev k * z k) 0 ≤ ∑ j, max (dev j * z j) 0 :=
          Finset.single_le_sum (fun j _ => le_max_right (dev j * z j) 0) (Finset.mem_univ k)
        linarith
    · rintro v ⟨γ, χ, ⟨hγ, hχ, _⟩, rfl⟩
      have : (0:ℝ) ≤ ∑ k, χ k := Finset.sum_nonneg fun k _ => hχ k
      linarith
  · constructor
    · exact ⟨fun _ => 0, ⟨fun k => ⟨le_refl 0, zero_le_one⟩, by simp⟩, by simp⟩
    · rintro v ⟨ξ, ⟨hbox, hbud⟩, rfl⟩
      have hz : ∀ k, ξ k = 0 := by
        intro k
        have hsum : ∑ k, ξ k = 0 :=
          le_antisymm hbud (Finset.sum_nonneg fun j _ => (hbox j).1)
        have := (Finset.sum_eq_zero_iff_of_nonneg
          (fun j (_ : j ∈ Finset.univ) => (hbox j).1)).1 hsum k (Finset.mem_univ k)
        exact this
      have : ∑ k, dev k * z k * ξ k = 0 := by
        refine Finset.sum_eq_zero fun k _ => ?_
        rw [hz k, mul_zero]
      rw [this]

/-- C2 (counterexample): with one item, `dev = [1]`, `z = [1]` and `Γ = 0`,
the optimal value of the emitted dual system is `0`, not
`Σ_k δ_k·z_k = 1`: setting `γ` large is free when `Γ = 0`, so nothing
forces `χ_k ≥ δ_k·z_k`. -/
theorem gammaZero_claim_counterexample :
    IsLeast (dualSet 1 0 ![(1:ℝ)] ![(1:ℝ)]) 0 ∧
      ¬ IsLeast (dualSet 1 0 ![(1:ℝ)] ![(1:ℝ)]) (∑ k : Fin 1, (![(1:ℝ)]) k * (![(1:ℝ)]) k) := by
  have h := (gammaZero_isLeast 1 ![(1:ℝ)] ![(1:ℝ)]).1
  refine ⟨h, fun hc => ?_⟩
  have hval : (∑ k : Fin 1, (![(1:ℝ)]) k * (![(1:ℝ)]) k) = 1 := by simp
  rw [hval] at hc
  have := hc.unique h
  norm_num at this

/-- C2 (amended): at `Γ = 0` the optimal value of the emitted dual system
`min { 0·γ + Σ_k χ_k : γ + χ_k ≥ δ_k·z_k, γ ≥ 0, χ ≥ 0 }` is `0` for every
`dev` and `z`, matching the adversarial maximum over the (deviation-free)
budgeted set at `Γ = 0`, which is also `0`. -/
theorem gammaZero_dual_optimum (n : ℕ) (dev z : Fin n → ℝ) :
    IsLeast (dualSet n 0 dev z) 0 ∧ IsGreatest (advSet n 0 dev z) 0 :=
  gammaZero_isLeast n dev z

/-- For `Γ ≥ n` the dualized slack term's least value is exactly
`Σ_k dev_k · z_k` (helper for several claims). -/
lemma isLeast_dual_of_n_le (n : ℕ) (Γ : ℝ) (dev z : Fin n → ℝ)
    (hdz : ∀ k, 0 ≤ dev k * z k) (hΓ : (n : ℝ) ≤ Γ) :
    IsLeast (dualSet n Γ dev z) (∑ k, dev k * z k) := by
  constructor
  · refine ⟨0, fun k => dev k * z k, ⟨le_refl 0, hdz, fun k => ?_⟩, by ring_nf⟩
    show dev k * z k ≤ 0 + dev k * z k
    linarith
  · rintro v ⟨γ, χ, ⟨hγ, hχ, hcon⟩, rfl⟩
    have h1 : ∑ k, dev k * z k ≤ ∑ k, (γ + χ k) :=
      Finset.sum_le_sum fun k _ => hcon k
    have h2 : ∑ k : Fin n, (γ + χ k) = (n : ℝ) * γ + ∑ k, χ k := by
      rw [Finset.sum_add_distrib, Finset.sum_const, Finset.card_univ, Fintype.card_fin,
        nsmul_eq_mul]
    have h3 : (n : ℝ) * γ ≤ Γ * γ := mul_le_mul_of_nonneg_right hΓ hγ
    linarith

/-- C3: for every `Γ ≥ n` and every fixed assignment `z ∈ [0,1]^n` with
`dev ≥ 0`, the optimal value of the dual system
`min { Γ·γ + Σ_k χ_k : γ + χ_k ≥ dev_k·z_k, γ, χ ≥ 0 }` equals
`Σ_k dev_k·z_k` exactly; the value is independent of `Γ` beyond `n`. -/
theorem dual_value_of_gamma_ge_n (n : ℕ) (Γ : ℝ) (dev z : Fin n → ℝ)
    (hz : ∀ k, 0 ≤ z k ∧ z k ≤ 1) (hdev : ∀ k, 0 ≤ dev k)
    (hΓ : (n : ℝ) ≤ Γ) :
    IsLeast (dualSet n Γ dev z) (∑ k, dev k * z k) :=
  isLeast_dual_of_n_le n Γ dev z (fun k => mul_nonneg (hdev k) (hz k).1) hΓ

/-- Witness for C3 at `n = 1`, `Γ = 3`, `dev = [2]`, `z = [1]`. -/
theorem dual_value_of_gamma_ge_n_witness :
    IsLeast (dualSet 1 3 ![(2:ℝ)] ![(1:ℝ)]) 2 := by
  have h := dual_value_of_gamma_ge_n 1 3 ![(2:ℝ)] ![(1:ℝ)]
    (fun k => by fin_cases k <;> norm_num)
    (fun k => by fin_cases k <;> norm_num)
    (by norm_num)
  simpa using h

/-- C9: increasing one deviation (all others unchanged) never decreases the
optimal value of the dualized slack term, for a fixed assignment
`z ∈ [0,1]^n` and fixed `Γ ≥ 0`. -/
theorem dual_value_monotone_in_dev (n : ℕ) (Γ : ℝ) (dev dev' z : Fin n → ℝ)
    (hΓ : 0 ≤ Γ) (hz : ∀ k, 0 ≤ z k ∧ z k ≤ 1) (k0 : Fin n)
    (hinc : dev k0 ≤ dev' k0) (hother : ∀ j, j ≠ k0 → dev' j = dev j) :
    sInf (dualSet n Γ dev z) ≤ sInf (dualSet n Γ dev' z) := by
  have hpt : ∀ j, dev j ≤ dev' j := by
    intro j
    by_cases hj : j = k0
    · subst hj; exact hinc
    · rw [hother j hj]
  have hsub : dualSet n Γ dev' z ⊆ dualSet n Γ dev z := by
    rintro v ⟨γ, χ, ⟨hγ, hχ, hcon⟩, rfl⟩
    refine ⟨γ, χ, ⟨hγ, hχ, fun k => ?_⟩, rfl⟩
    calc dev k * z k ≤ dev' k * z k :=
          mul_le_mul_of_nonneg_right (hpt k) (hz k).1
    _ ≤ γ + χ k := hcon k
  exact csInf_le_csInf (dualSet_bddBelow n dev z hΓ)
    (dualSet_nonempty n Γ dev' z) hsub

/-- There is a permutation sorting any finite real tuple in decreasing
order (via `Tuple.sort` applied to the negated tuple). -/
lemma exists_antitone_perm (n : ℕ) (a : Fin n → ℝ) :
    ∃ σ : Equiv.Perm (Fin n), ∀ i j : Fin n, i ≤ j → a (σ j) ≤ a (σ i) := by
  refine ⟨Tuple.sort (fun k => -(a k)), fun i j hij => ?_⟩
  have h := Tuple.monotone_sort (fun k => -(a k)) hij
  simpa using h

/-- Strong duality for the budgeted dualization: for `0 ≤ Γ ≤ n` and
nonnegative products `dev_k·z_k`, one common value is both the least dual
value and the greatest adversarial value.  The optimal dual price `γ` sits
at the `(⌊Γ⌋+1)`-st largest product, and the optimal adversary perturbs the
`⌊Γ⌋` largest products fully plus a `Γ - ⌊Γ⌋` fraction of the next one. -/
lemma exists_strong_duality (n : ℕ) (Γ : ℝ) (dev z : Fin n → ℝ)
    (hdz : ∀ k, 0 ≤ dev k * z k) (hΓ0 : 0 ≤ Γ) (hΓn : Γ ≤ n) :
    ∃ V, IsLeast (dualSet n Γ dev z) V ∧ IsGreatest (advSet n Γ dev z) V := by
  by_cases hcase : ⌊Γ⌋₊ < n
  · -- `⌊Γ⌋ < n`: sort, put `γ` at the `(⌊Γ⌋+1)`-st largest product.
    obtain ⟨σ, hanti⟩ := exists_antitone_perm n (fun k => dev k * z k)
    have hanti' : ∀ i j : Fin n, i ≤ j →
        dev (σ j) * z (σ j) ≤ dev (σ i) * z (σ i) := hanti
    obtain ⟨im, him⟩ : ∃ im : Fin n, (im : ℕ) = ⌊Γ⌋₊ := ⟨⟨⌊Γ⌋₊, hcase⟩, rfl⟩
    have hflr : ((⌊Γ⌋₊ : ℕ) : ℝ) ≤ Γ := Nat.floor_le hΓ0
    have hflr1 : Γ < (⌊Γ⌋₊ : ℝ) + 1 := Nat.lt_floor_add_one Γ
    have hθ0 : 0 ≤ Γ - (⌊Γ⌋₊ : ℝ) := by linarith
    have hθ1 : Γ - (⌊Γ⌋₊ : ℝ) ≤ 1 := by linarith
    have hγ0nn : 0 ≤ dev (σ im) * z (σ im) := hdz _
    have hScard : (Finset.Iio im).card = ⌊Γ⌋₊ := by
      rw [Fin.card_Iio, him]
    have hfilter : Finset.univ.filter (fun j : Fin n => j < im) = Finset.Iio im := by
      ext j; simp
    -- the common optimal value
    have hγle : ∀ j ∈ Finset.Iio im,
        dev (σ im) * z (σ im) ≤ dev (σ j) * z (σ j) := by
      intro j hj
      exact hanti' j im (le_of_lt (Finset.mem_Iio.1 hj))
    have hγge : ∀ j : Fin n, ¬ j < im →
        dev (σ j) * z (σ j) ≤ dev (σ im) * z (σ im) := by
      intro j hj
      exact hanti' im j (not_lt.1 hj)
    -- dual membership at the optimal value
    have hdualmem :
        ((∑ j ∈ Finset.Iio im, dev (σ j) * z (σ j)) +
          (Γ - (⌊Γ⌋₊ : ℝ)) * (dev (σ im) * z (σ im))) ∈ dualSet n Γ dev z := by
      refine ⟨dev (σ im) * z (σ im),
        fun k => max (dev k * z k - dev (σ im) * z (σ im)) 0,
        ⟨hγ0nn, fun k => le_max_right _ _, fun k => ?_⟩, ?_⟩
      · have h1 : dev k * z k - dev (σ im) * z (σ im) ≤
            max (dev k * z k - dev (σ im) * z (σ im)) 0 := le_max_left _ _
        linarith
      · have hperm : ∑ k, max (dev k * z k - dev (σ im) * z (σ im)) 0 =
            ∑ j, max (dev (σ j) * z (σ j) - dev (σ im) * z (σ im)) 0 :=
          (Equiv.sum_comp σ
            (fun k => max (dev k * z k - dev (σ im) * z (σ im)) 0)).symm
        have hsplit : ∑ j, max (dev (σ j) * z (σ j) - dev (σ im) * z (σ im)) 0 =
            ∑ j ∈ Finset.Iio im, (dev (σ j) * z (σ j) - dev (σ im) * z (σ im)) := by
          rw [← Finset.sum_filter_add_sum_filter_not Finset.univ (fun j => j < im)
            (fun j => max (dev (σ j) * z (σ j) - dev (σ im) * z (σ im)) 0), hfilter]
          have e1 : ∑ j ∈ Finset.Iio im,
              max (dev (σ j) * z (σ j) - dev (σ im) * z (σ im)) 0 =
              ∑ j ∈ Finset.Iio im, (dev (σ j) * z (σ j) - dev (σ im) * z (σ im)) := by
            refine Finset.sum_congr rfl fun j hj => ?_
            exact max_eq_left (by linarith [hγle j hj])
          have e2 : ∑ j ∈ Finset.univ.filter (fun j : Fin n => ¬ j < im),
              max (dev (σ j) * z (σ j) - dev (σ im) * z (σ im)) 0 = 0 := by
            refine Finset.sum_eq_zero fun j hj => ?_
            have hj' : ¬ j < im := (Finset.mem_filter.1 hj).2
            exact max_eq_right (by linarith [hγge j hj'])
          rw [e1, e2, add_zero]
        have hsub : ∑ j ∈ Finset.Iio im,
            (dev (σ j) * z (σ j) - dev (σ im) * z (σ im)) =
            (∑ j ∈ Finset.Iio im, dev (σ j) * z (σ j)) -
              (⌊Γ⌋₊ : ℝ) * (dev (σ im) * z (σ im)) := by
          rw [Finset.sum_sub_distrib, Finset.sum_const, hScard, nsmul_eq_mul]
        rw [hperm, hsplit, hsub]
        ring
    -- adversarial membership at the optimal value
    have hadvmem :
        ((∑ j ∈ Finset.Iio im, dev (σ j) * z (σ j)) +
          (Γ - (⌊Γ⌋₊ : ℝ)) * (dev (σ im) * z (σ im))) ∈ advSet n Γ dev z := by
      refine ⟨fun k => if σ.symm k < im then (1:ℝ)
        else if σ.symm k = im then Γ - (⌊Γ⌋₊ : ℝ) else 0, ⟨fun k => ?_, ?_⟩, ?_⟩
      · refine ⟨?_, ?_⟩
        · show (0:ℝ) ≤
            if σ.symm k < im then (1:ℝ) else if σ.symm k = im then Γ - (⌊Γ⌋₊ : ℝ) else 0
          split_ifs <;> norm_num [hθ0]
        · show (if σ.symm k < im then (1:ℝ)
            else if σ.symm k = im then Γ - (⌊Γ⌋₊ : ℝ) else 0) ≤ 1
          split_ifs <;> norm_num [hθ1]
      · have hperm : (∑ k, if σ.symm k < im then (1:ℝ)
            else if σ.symm k = im then Γ - (⌊Γ⌋₊ : ℝ) else 0) =
            ∑ j, (if j < im then (1:ℝ) else if j = im then Γ - (⌊Γ⌋₊ : ℝ) else 0) := by
          have := Equiv.sum_comp σ
            (fun k => if σ.symm k < im then (1:ℝ)
              else if σ.symm k = im then Γ - (⌊Γ⌋₊ : ℝ) else 0)
          simpa using this.symm
        rw [hperm, ← Finset.sum_filter_add_sum_filter_not Finset.univ
          (fun j => j < im)
          (fun j => if j < im then (1:ℝ) else if j = im then Γ - (⌊Γ⌋₊ : ℝ) else 0)]
        have e1 : ∑ j ∈ Finset.univ.filter (fun j : Fin n => j < im),
            (if j < im then (1:ℝ) else if j = im then Γ - (⌊Γ⌋₊ : ℝ) else 0) =
            (⌊Γ⌋₊ : ℝ) := by
          rw [hfilter]
          rw [Finset.sum_congr rfl (fun j hj => if_pos (Finset.mem_Iio.1 hj))]
          rw [Finset.sum_const, hScard, nsmul_eq_mul, mul_one]
        have e2 : ∑ j ∈ Finset.univ.filter (fun j : Fin n => ¬ j < im),
            (if j < im then (1:ℝ) else if j = im then Γ - (⌊Γ⌋₊ : ℝ) else 0) =
            Γ - (⌊Γ⌋₊ : ℝ) := by
          rw [Finset.sum_congr rfl
            (fun j hj => if_neg (Finset.mem_filter.1 hj).2)]
          rw [Finset.sum_ite_eq' (Finset.univ.filter (fun j : Fin n => ¬ j < im)) im
            (fun _ => Γ - (⌊Γ⌋₊ : ℝ))]
          rw [if_pos (Finset.mem_filter.2 ⟨Finset.mem_univ im, lt_irrefl im⟩)]
        rw [e1, e2]
        linarith
      · have hperm : (∑ k, dev k * z k * (if σ.symm k < im then (1:ℝ)
            else if σ.symm k = im then Γ - (⌊Γ⌋₊ : ℝ) else 0)) =
            ∑ j, dev (σ j) * z (σ j) *
              (if j < im then (1:ℝ) else if j = im then Γ - (⌊Γ⌋₊ : ℝ) else 0) := by
          have := Equiv.sum_comp σ
            (fun k => dev k * z k * (if σ.symm k < im then (1:ℝ)
              else if σ.symm k = im then Γ - (⌊Γ⌋₊ : ℝ) else 0))
          simpa using this.symm
        rw [hperm, ← Finset.sum_filter_add_sum_filter_not Finset.univ
          (fun j => j < im)
          (fun j => dev (σ j) * z (σ j) *
            (if j < im then (1:ℝ) else if j = im then Γ - (⌊Γ⌋₊ : ℝ) else 0))]
        have e1 : ∑ j ∈ Finset.univ.filter (fun j : Fin n => j < im),
            dev (σ j) * z (σ j) *
              (if j < im then (1:ℝ) else if j = im then Γ - (⌊Γ⌋₊ : ℝ) else 0) =
            ∑ j ∈ Finset.Iio im, dev (σ j) * z (σ j) := by
          rw [hfilter]
          refine Finset.sum_congr rfl fun j hj => ?_
          rw [if_pos (Finset.mem_Iio.1 hj), mul_one]
        have e2 : ∑ j ∈ Finset.univ.filter (fun j : Fin n => ¬ j < im),
            dev (σ j) * z (σ j) *
              (if j < im then (1:ℝ) else if j = im then Γ - (⌊Γ⌋₊ : ℝ) else 0) =
            (Γ - (⌊Γ⌋₊ : ℝ)) * (dev (σ im) * z (σ im)) := by
          have ec : ∀ j ∈ Finset.univ.filter (fun j : Fin n => ¬ j < im),
              dev (σ j) * z (σ j) *
                (if j < im then (1:ℝ) else if j = im then Γ - (⌊Γ⌋₊ : ℝ) else 0) =
              (if j = im then dev (σ j) * z (σ j) * (Γ - (⌊Γ⌋₊ : ℝ)) else 0) := by
            intro j hj
            rw [if_neg (Finset.mem_filter.1 hj).2]
            split_ifs <;> ring
          rw [Finset.sum_congr rfl ec]
          rw [Finset.sum_ite_eq' (Finset.univ.filter (fun j : Fin n => ¬ j < im)) im
            (fun j => dev (σ j) * z (σ j) * (Γ - (⌊Γ⌋₊ : ℝ)))]
          rw [if_pos (Finset.mem_filter.2 ⟨Finset.mem_univ im, lt_irrefl im⟩)]
          ring
        rw [e1, e2]
    exact ⟨_, ⟨hdualmem, fun u hu => adv_le_dual hadvmem hu⟩,
      ⟨hadvmem, fun v hv => adv_le_dual hv hdualmem⟩⟩
  · -- `⌊Γ⌋ ≥ n` together with `Γ ≤ n` forces `Γ = n`: full conservatism.
    have hn : (n : ℝ) ≤ Γ := by
      have h2 : n ≤ ⌊Γ⌋₊ := not_lt.1 hcase
      have h2' : ((n : ℕ) : ℝ) ≤ ((⌊Γ⌋₊ : ℕ) : ℝ) := by exact_mod_cast h2
      have h1 : ((⌊Γ⌋₊ : ℕ) : ℝ) ≤ Γ := Nat.floor_le hΓ0
      linarith
    have hL := isLeast_dual_of_n_le n Γ dev z hdz hn
    have hadvmem : (∑ k, dev k * z k) ∈ advSet n Γ dev z := by
      refine ⟨fun _ => 1, ⟨fun k => ⟨zero_le_one, le_refl 1⟩, ?_⟩, by simp⟩
      simpa using hn
    exact ⟨_, hL, ⟨hadvmem, fun v hv => adv_le_dual hv hL.1⟩⟩

/-- C1: for a fixed assignment `z ∈ [0,1]^n`, deviations `dev ≥ 0` and a
budget `0 ≤ Γ ≤ n`, the minimum of the dual system the robust capacity
constraint embeds equals the adversarial maximum over the budgeted
uncertainty set, and consequently the robust capacity row
`Σ w_k·z_k + Γ·γ + Σ χ_k ≤ cap` is satisfiable by feasible duals iff the
nominal row holds for every realization in the uncertainty set. -/
theorem strong_duality_budgeted (n : ℕ) (Γ : ℝ) (dev z : Fin n → ℝ)
    (hz : ∀ k, 0 ≤ z k ∧ z k ≤ 1) (hdev : ∀ k, 0 ≤ dev k)
    (hΓ0 : 0 ≤ Γ) (hΓn : Γ ≤ n) :
    sInf (dualSet n Γ dev z) = sSup (advSet n Γ dev z) ∧
    ∀ w : Fin n → ℝ, ∀ cap : ℝ,
      ((∃ γ χ, DualFeas n dev z γ χ ∧
          (∑ k, w k * z k) + (Γ * γ + ∑ k, χ k) ≤ cap) ↔
        (∀ ξ, AdvFeas n Γ ξ →
          (∑ k, w k * z k) + (∑ k, dev k * z k * ξ k) ≤ cap)) := by
  obtain ⟨V, hL, hG⟩ := exists_strong_duality n Γ dev z
    (fun k => mul_nonneg (hdev k) (hz k).1) hΓ0 hΓn
  constructor
  · rw [hL.csInf_eq, hG.csSup_eq]
  · intro w cap
    constructor
    · rintro ⟨γ, χ, hfeas, hcap⟩ ξ hξ
      have hwd : (∑ k, dev k * z k * ξ k) ≤ Γ * γ + ∑ k, χ k :=
        adv_le_dual ⟨ξ, hξ, rfl⟩ ⟨γ, χ, hfeas, rfl⟩
      linarith
    · intro hall
      obtain ⟨ξ0, hξ0, hVp⟩ := hG.1
      obtain ⟨γ, χ, hfeas, hVd⟩ := hL.1
      refine ⟨γ, χ, hfeas, ?_⟩
      have := hall ξ0 hξ0
      rw [← hVd, ← hVp] at *
      linarith

/-- Witness for C1 at `n = 1`, `Γ = 1`, `dev = [1]`, `z = [1]`. -/
theorem strong_duality_budgeted_witness :
    sInf (dualSet 1 1 ![(1:ℝ)] ![(1:ℝ)]) = sSup (advSet 1 1 ![(1:ℝ)] ![(1:ℝ)]) ∧
    ∀ w : Fin 1 → ℝ, ∀ cap : ℝ,
      ((∃ γ χ, DualFeas 1 ![(1:ℝ)] ![(1:ℝ)] γ χ ∧
          (∑ k, w k * (![(1:ℝ)]) k) + (1 * γ + ∑ k, χ k) ≤ cap) ↔
        (∀ ξ, AdvFeas 1 1 ξ →
          (∑ k, w k * (![(1:ℝ)]) k) + (∑ k, (![(1:ℝ)]) k * (![(1:ℝ)]) k * ξ k) ≤ cap)) :=
  strong_duality_budgeted 1 1 ![(1:ℝ)] ![(1:ℝ)]
    (fun k => by fin_cases k <;> norm_num)
    (fun k => by fin_cases k <;> norm_num)
    (by norm_num) (by norm_num)

/-- Witness for C9 at `n = 1`, `Γ = 1`, `dev = [1]`, `dev' = [2]`, `z = [1]`. -/
theorem dual_value_monotone_in_dev_witness :
    sInf (dualSet 1 1 ![(1:ℝ)] ![(1:ℝ)]) ≤ sInf (dualSet 1 1 ![(2:ℝ)] ![(1:ℝ)]) :=
  dual_value_monotone_in_dev 1 1 ![(1:ℝ)] ![(2:ℝ)] ![(1:ℝ)] (by norm_num)
    (fun k => by fin_cases k <;> norm_num) 0 (by norm_num)
    (fun j hj => absurd (Subsingleton.elim j 0) hj)

end Budgeted

namespace PMedian

/-- The six demand/facility nodes of P-median.py (line 49). -/
inductive Node
  | A
  | B
  | C
  | D
  | E
  | F
deriving DecidableEq, Fintype

open Node

/-- The three uncertain arcs of the robust model (P-median.py line 102). -/
def uncertain_arcs : Fin 3 → Node × Node := ![(A, F), (B, F), (C, E)]

/-- The stacked half-space matrix `D = vstack([eye(3), -eye(3)])`
(P-median.py line 106): one row per bounding half-space. -/
def Dmat : Fin 6 → Fin 3 → ℝ := fun k l =>
  if (k : ℕ) < 3 then (if (k : ℕ) = (l : ℕ) then 1 else 0)
  else (if (k : ℕ) = (l : ℕ) + 3 then -1 else 0)

/-- The half-space bounds `q = [2,…,2]` (P-median.py line 107): each
uncertain distance may deviate by at most ±2. -/
def q : Fin 6 → ℝ := fun _ => 2

/-- The sensitivity indicator `P[(i,j)][k]` (P-median.py lines 110–116):
1 when `(i,j)` is the `k`-th uncertain arc, 0 otherwise. -/
def P : Node × Node → Fin 3 → ℝ := fun p l => if p = uncertain_arcs l then 1 else 0

/-- Values of the dualized robust objective term `Σ_k q_k·w_k` over
nonnegative `w` satisfying the dual-feasibility equations
`Σ_k D[k,l]·w_k = -Σ_p P[p][l]·y[p]` for every uncertain dimension `l`
(P-median.py lines 123–142), at a fixed assignment `y`. -/
def robustTermSet (y : Node × Node → ℝ) : Set ℝ :=
  {v | ∃ w : Fin 6 → ℝ, (∀ k, 0 ≤ w k) ∧
    (∀ l : Fin 3, ∑ k, Dmat k l * w k = -∑ p : Node × Node, P p l * y p) ∧
    v = ∑ k, q k * w k}

/-- The sensitivity row sum reduces to the `y`-value at the uncertain arc. -/
lemma sumP (l : Fin 3) (y : Node × Node → ℝ) :
    ∑ p : Node × Node, P p l * y p = y (uncertain_arcs l) := by
  simp only [P, ite_mul, one_mul, zero_mul]
  exact Fintype.sum_ite_eq' (uncertain_arcs l) y

/-- Evaluating a 6-vector literal at its last index. -/
lemma cons_val_five {α : Type*} (a b c d e f : α) :
    (![a, b, c, d, e, f] : Fin 6 → α) 5 = f := rfl

/-- Dual-feasibility row 0 of `D = [I; -I]`. -/
lemma Dsum_zero (w : Fin 6 → ℝ) : ∑ k : Fin 6, Dmat k 0 * w k = w 0 - w 3 := by
  rw [Fin.sum_univ_six, show Dmat 0 0 = 1 from rfl, show Dmat 1 0 = 0 from rfl,
    show Dmat 2 0 = 0 from rfl, show Dmat 3 0 = -1 from rfl,
    show Dmat 4 0 = 0 from rfl, show Dmat 5 0 = 0 from rfl]
  ring

/-- Dual-feasibility row 1 of `D = [I; -I]`. -/
lemma Dsum_one (w : Fin 6 → ℝ) : ∑ k : Fin 6, Dmat k 1 * w k = w 1 - w 4 := by
  rw [Fin.sum_univ_six, show Dmat 0 1 = 0 from rfl, show Dmat 1 1 = 1 from rfl,
    show Dmat 2 1 = 0 from rfl, show Dmat 3 1 = 0 from rfl,
    show Dmat 4 1 = -1 from rfl, show Dmat 5 1 = 0 from rfl]
  ring

/-- Dual-feasibility row 2 of `D = [I; -I]`. -/
lemma Dsum_two (w : Fin 6 → ℝ) : ∑ k : Fin 6, Dmat k 2 * w k = w 2 - w 5 := by
  rw [Fin.sum_univ_six, show Dmat 0 2 = 0 from rfl, show Dmat 1 2 = 0 from rfl,
    show Dmat 2 2 = 1 from rfl, show Dmat 3 2 = 0 from rfl,
    show Dmat 4 2 = 0 from rfl, show Dmat 5 2 = -1 from rfl]
  ring

/-- The robust objective term is twice the total dual mass. -/
lemma qsum (w : Fin 6 → ℝ) :
    ∑ k : Fin 6, q k * w k = 2 * (w 0 + w 1 + w 2 + w 3 + w 4 + w 5) := by
  rw [Fin.sum_univ_six]
  show (2:ℝ) * w 0 + 2 * w 1 + 2 * w 2 + 2 * w 3 + 2 * w 4 + 2 * w 5 = _
  ring

/-- C4: in the robust p-median model, for every fixed binary assignment `y`,
the least value of the dualized objective term `Σ_k q_k·w_k` subject to the
dual-feasibility equations equals `Σ_l δ_l·|sensitivity_l(y)|`, which for
the shipped data (`δ_l = 2`, indicator sensitivities) is
`2·(y[A,F] + y[B,F] + y[C,E])`. -/
theorem box_dual_roundtrip (y : Node × Node → ℝ)
    (hy : ∀ p, y p = 0 ∨ y p = 1) :
    IsLeast (robustTermSet y) (2 * (y (A, F) + y (B, F) + y (C, E))) := by
  have hy0 : ∀ p, 0 ≤ y p := by
    intro p
    rcases hy p with h | h <;> rw [h] <;> norm_num
  constructor
  · refine ⟨![0, 0, 0, y (A, F), y (B, F), y (C, E)], fun k => ?_, fun l => ?_, ?_⟩
    · fin_cases k <;> simp [cons_val_five, hy0]
    · fin_cases l
      · rw [show (⟨0, by norm_num⟩ : Fin 3) = 0 from rfl, Dsum_zero, sumP,
          show uncertain_arcs 0 = (A, F) from rfl]
        simp [cons_val_five]
      · rw [show (⟨1, by norm_num⟩ : Fin 3) = 1 from rfl, Dsum_one, sumP,
          show uncertain_arcs 1 = (B, F) from rfl]
        simp [cons_val_five]
      · rw [show (⟨2, by norm_num⟩ : Fin 3) = 2 from rfl, Dsum_two, sumP,
          show uncertain_arcs 2 = (C, E) from rfl]
        simp [cons_val_five]
    · rw [qsum]
      simp [cons_val_five]
  · rintro v ⟨w, hw, hcon, rfl⟩
    have h0 := hcon 0
    have h1 := hcon 1
    have h2 := hcon 2
    rw [Dsum_zero, sumP, show uncertain_arcs 0 = (A, F) from rfl] at h0
    rw [Dsum_one, sumP, show uncertain_arcs 1 = (B, F) from rfl] at h1
    rw [Dsum_two, sumP, show uncertain_arcs 2 = (C, E) from rfl] at h2
    rw [qsum]
    linarith [hw 0, hw 1, hw 2, hw 3, hw 4, hw 5]

/-- Witness for C4 at the all-ones assignment. -/
theorem box_dual_roundtrip_witness :
    IsLeast (robustTermSet fun _ => 1) 6 := by
  have h := box_dual_roundtrip (fun _ => 1) (fun p => Or.inr rfl)
  norm_num at h
  exact h

end PMedian

namespace Knapsack

/-- Real value of a binary (0-1) decision variable. -/
def bval (b : Bool) : ℝ := if b then 1 else 0

/-- Item profits of the example (RKP.py line 29 / line 103). -/
def values : Fin 5 → ℝ := ![10, 7, 5, 8, 11]

/-- Nominal item weights of the example (RKP.py line 30 / line 104). -/
def weights : Fin 5 → ℝ := ![2, 3, 1, 4, 5]

/-- Weight deviations of the example (RKP.py line 31 / line 105). -/
def deviations : Fin 5 → ℝ := ![1, 2, 1, 1, 3]

/-- Feasibility in `solve_deterministic_knapsack` with the example data
(RKP.py lines 41–47): total nominal weight within capacity 15. -/
def DetFeas (x : Fin 5 → Bool) : Prop := ∑ i, weights i * bval (x i) ≤ 15

/-- Profits achievable in the deterministic model. -/
def detValues : Set ℝ := {v | ∃ x, DetFeas x ∧ v = ∑ i, values i * bval (x i)}

/-- Feasibility in the model built by `solve_robust_knapsack` (RKP.py lines
74–85) with the example weights and capacity 15, for arbitrary deviations
and budget: binary `x`, duals `γ, χ ≥ 0` with `γ + χ_i ≥ dev_i·x_i`, and
the robust capacity row. -/
def RobustFeas (dev : Fin 5 → ℝ) (Γ : ℝ) (x : Fin 5 → Bool) (γ : ℝ)
    (χ : Fin 5 → ℝ) : Prop :=
  0 ≤ γ ∧ (∀ i, 0 ≤ χ i) ∧ (∀ i, dev i * bval (x i) ≤ γ + χ i) ∧
    ∑ i, weights i * bval (x i) + Γ * γ + ∑ i, χ i ≤ 15

/-- Profits achievable in the robust model with the example deviations and
`Γ = 2` (RKP.py lines 105–107). -/
def robustValues : Set ℝ :=
  {v | ∃ x γ χ, RobustFeas deviations 2 x γ χ ∧ v = ∑ i, values i * bval (x i)}

lemma bval_nonneg (b : Bool) : 0 ≤ bval b := by cases b <;> norm_num [bval]

lemma bval_le_one (b : Bool) : bval b ≤ 1 := by cases b <;> norm_num [bval]

lemma values_nonneg (i : Fin 5) : 0 ≤ values i := by
  fin_cases i <;> norm_num [values]

/-- No selection earns more than the total profit 41. -/
lemma det_le_41 : ∀ v ∈ detValues, v ≤ 41 := by
  rintro v ⟨x, _, rfl⟩
  calc ∑ i, values i * bval (x i) ≤ ∑ i, values i :=
        Finset.sum_le_sum fun i _ =>
          mul_le_of_le_one_right (values_nonneg i) (bval_le_one (x i))
  _ = 41 := by norm_num [Fin.sum_univ_five, values]

/-- Selecting all five items is feasible (total weight exactly 15) and
earns 41. -/
lemma mem41 : (41:ℝ) ∈ detValues := by
  refine ⟨fun _ => true, ?_, ?_⟩ <;>
    norm_num [DetFeas, Fin.sum_univ_five, weights, values, bval]

lemma isGreatest_det : IsGreatest detValues 41 := ⟨mem41, det_le_41⟩

/-- Every robust-feasible selection is feasible in the deterministic model
(the added dual terms are nonnegative). -/
lemma robust_subset_det : robustValues ⊆ detValues := by
  rintro v ⟨x, γ, χ, ⟨hγ, hχ, _, hcap⟩, rfl⟩
  refine ⟨x, ?_, rfl⟩
  have hs : 0 ≤ ∑ i, χ i := Finset.sum_nonneg fun i _ => hχ i
  unfold DetFeas
  linarith

lemma robust_nonempty : robustValues.Nonempty := by
  refine ⟨0, fun _ => false, 0, fun _ => 0, ⟨le_refl 0, fun i => le_refl 0, fun i => ?_, ?_⟩, ?_⟩
  · norm_num [bval]
  · norm_num [Fin.sum_univ_five, weights, bval]
  · norm_num [Fin.sum_univ_five, values, bval]

/-- Selecting items 1–4 with duals `γ = 1`, `χ = (0,1,0,0,0)` is robust
feasible (worst-case load 13 ≤ 15) and earns 30. -/
lemma mem30 : (30:ℝ) ∈ robustValues := by
  refine ⟨![true, true, true, true, false], 1, ![0, 1, 0, 0, 0],
    ⟨by norm_num, fun i => ?_, fun i => ?_, ?_⟩, ?_⟩
  · fin_cases i <;> norm_num
  · fin_cases i <;> norm_num [deviations, bval]
  · norm_num [Fin.sum_univ_five, weights, bval]
  · norm_num [Fin.sum_univ_five, values, bval]

lemma bddAbove_det : BddAbove detValues := ⟨41, det_le_41⟩

lemma detOpt_eq : sSup detValues = 41 := isGreatest_det.csSup_eq

lemma robustOpt_le_detOpt : sSup robustValues ≤ sSup detValues :=
  csSup_le_csSup bddAbove_det robust_nonempty robust_subset_det

lemma robustOpt_ge_30 : (30:ℝ) ≤ sSup robustValues :=
  le_csSup (bddAbove_det.mono robust_subset_det) mem30

/-- C5 (counterexample): with profits [10,7,5,8,11] and weights [2,3,1,4,5]
all five items fit in capacity 15 exactly, so the deterministic optimum is
41, not 26; and the robust optimum with deviations [1,2,1,1,3], `Γ = 2`
is at least 30, hence not at most 26. -/
theorem knapsack_example_counterexample :
    sSup detValues = 41 ∧ sSup detValues ≠ 26 ∧ 26 < sSup robustValues := by
  refine ⟨detOpt_eq, ?_, ?_⟩
  · rw [detOpt_eq]; norm_num
  · have := robustOpt_ge_30
    linarith

/-- C5 (amended): the deterministic 0-1 knapsack optimum for the example
data is 41, attained by selecting all five items, and the robust knapsack
optimum (deviations [1,2,1,1,3], `Γ = 2`) is at most the deterministic
optimum. -/
theorem knapsack_example_amended :
    IsGreatest detValues 41 ∧ sSup robustValues ≤ sSup detValues :=
  ⟨isGreatest_det, robustOpt_le_detOpt⟩

/-- Follows the spec's words (§4.1), for comparison with the source:
a Budgeted uncertainty configuration is valid iff `0 ≤ Γ ≤ n` and
`δ_k ≥ 0` for every `k`; the spec says construction must fail with
`InvalidUncertaintyConfig` otherwise. -/
def SpecBudgetedValid (n : ℕ) (Γ : ℝ) (dev : Fin n → ℝ) : Prop :=
  0 ≤ Γ ∧ Γ ≤ n ∧ ∀ k, 0 ≤ dev k

/-- C8 (counterexample): `Γ = -1` violates the spec's bounds, yet
`solve_robust_knapsack` performs no validation: the model is built as
usual and the all-zero point satisfies it, so construction proceeds. -/
theorem no_validation_counterexample :
    ¬ SpecBudgetedValid 5 (-1) deviations ∧
      RobustFeas deviations (-1) (fun _ => false) 0 (fun _ => 0) := by
  constructor
  · intro h
    have := h.1
    norm_num at this
  · refine ⟨le_refl 0, fun i => le_refl 0, fun i => ?_, ?_⟩
    · norm_num [bval]
    · norm_num [Fin.sum_univ_five, weights, bval]

/-- C8 (amended): the source performs no construction-time validation at
all: for every budget `Γ` (including `Γ < 0` or `Γ > n`) and every
deviation vector (including negative entries), the robust model is built
and the all-zero point satisfies it; no `InvalidUncertaintyConfig`
failure path exists in the code. -/
theorem no_validation_amended (Γ : ℝ) (dev : Fin 5 → ℝ) :
    RobustFeas dev Γ (fun _ => false) 0 (fun _ => 0) := by
  refine ⟨le_refl 0, fun i => le_refl 0, fun i => ?_, ?_⟩
  · norm_num [bval]
  · norm_num [Fin.sum_univ_five, weights, bval]

end Knapsack

namespace SetCovering

/-- Opening costs of Set_covering.py (lines 50–52); sites A..F are 0..5. -/
def costs : Fin 6 → ℚ := ![10, 10, 20, 20, 10, 10]

/-- Coverage lists (Set_covering.py lines 54–61): demand node `i` is
covered by the sites in `cover i`. -/
def cover : Fin 6 → List (Fin 6) :=
  ![[0, 1, 2], [0, 1, 3], [0, 2, 3], [1, 2, 3, 4], [3, 4], [5]]

/-- The box-uncertainty discount factor (Set_covering.py line 63). -/
def delta : ℚ := 0.5

/-- Rational value of a binary decision variable. -/
def bqval (b : Bool) : ℚ := if b then 1 else 0

/-- Total opening cost of a selection (Set_covering.py lines 85 and 113). -/
def cost (x : Fin 6 → Bool) : ℚ := ∑ j, costs j * bqval (x j)

/-- Deterministic feasibility (Set_covering.py lines 86–87): each demand
node is covered by at least one selected site. -/
def DetFeas (x : Fin 6 → Bool) : Prop :=
  ∀ i : Fin 6, 1 ≤ ((cover i).map fun j => bqval (x j)).sum

/-- Robust feasibility (Set_covering.py lines 114–115): every coverage
coefficient is discounted to `1 - delta`. -/
def RobustFeas (x : Fin 6 → Bool) : Prop :=
  ∀ i : Fin 6, 1 ≤ ((cover i).map fun j => (1 - delta) * bqval (x j)).sum

/-- Costs reported by the deterministic model. -/
def detCostSet : Set ℚ := {c | ∃ x, DetFeas x ∧ c = cost x}

/-- Costs reported by the robust (discounted) model. -/
def robustCostSet : Set ℚ := {c | ∃ x, RobustFeas x ∧ c = cost x}

/-- Natural-number mirror of the costs, for exhaustive checking. -/
def costsN : Fin 6 → ℕ := ![10, 10, 20, 20, 10, 10]

/-- Natural-number mirror of `cost`. -/
def costN (x : Fin 6 → Bool) : ℕ := ∑ j, costsN j * (if x j then 1 else 0)

lemma costs_cast (j : Fin 6) : costs j = (costsN j : ℚ) := by
  fin_cases j <;> norm_num [costs, costsN]

lemma cost_eq_costN (x : Fin 6 → Bool) : cost x = (costN x : ℚ) := by
  unfold cost costN
  rw [Nat.cast_sum]
  refine Finset.sum_congr rfl fun j _ => ?_
  rw [costs_cast]
  cases hx : x j <;> simp [bqval]

lemma list_sum_bqval (x : Fin 6 → Bool) (L : List (Fin 6)) :
    (L.map fun j => bqval (x j)).sum = ((L.countP fun j => x j : ℕ) : ℚ) := by
  induction L with
  | nil => simp
  | cons a t ih =>
    rw [List.map_cons, List.sum_cons, ih, List.countP_cons]
    cases hx : x a
    · simp [bqval, hx]
    · simp [bqval, hx]
      push_cast
      ring

lemma list_sum_half (x : Fin 6 → Bool) (L : List (Fin 6)) :
    (L.map fun j => (1 - delta) * bqval (x j)).sum =
      ((L.countP fun j => x j : ℕ) : ℚ) / 2 := by
  induction L with
  | nil => simp
  | cons a t ih =>
    rw [List.map_cons, List.sum_cons, ih, List.countP_cons]
    cases hx : x a <;> simp [bqval, hx, delta] <;> ring

lemma detFeas_iff (x : Fin 6 → Bool) :
    DetFeas x ↔ ∀ i : Fin 6, 1 ≤ (cover i).countP fun j => x j := by
  unfold DetFeas
  refine forall_congr' fun i => ?_
  rw [list_sum_bqval]
  exact Nat.one_le_cast

lemma robustFeas_iff (x : Fin 6 → Bool) :
    RobustFeas x ↔ ∀ i : Fin 6, 2 ≤ (cover i).countP fun j => x j := by
  unfold RobustFeas
  refine forall_congr' fun i => ?_
  rw [list_sum_half, le_div_iff (by norm_num : (0:ℚ) < 2), one_mul]
  exact_mod_cast Iff.rfl

/-- No covering selection costs less than 30 (exhaustive check over the 64
binary selections). -/
lemma det_lb : ∀ x : Fin 6 → Bool, DetFeas x → 30 ≤ cost x := by
  intro x hx
  rw [cost_eq_costN]
  have h : 30 ≤ costN x := by
    revert x
    have : ∀ x : Fin 6 → Bool,
        (∀ i : Fin 6, 1 ≤ (cover i).countP fun j => x j) → 30 ≤ costN x := by decide
    intro x hx
    exact this x ((detFeas_iff x).1 hx)
  exact_mod_cast h

/-- Sites {A, E, F} cover every demand node at cost 30. -/
lemma scp_mem30 : (30:ℚ) ∈ detCostSet := by
  refine ⟨![true, false, false, false, true, true], ?_, ?_⟩
  · rw [detFeas_iff]
    decide
  · rw [cost_eq_costN]
    norm_num [show costN ![true, false, false, false, true, true] = 30 from by decide]

/-- No binary selection satisfies the discounted coverage constraints. -/
lemma robust_infeasible : ∀ x : Fin 6 → Bool, ¬ RobustFeas x := by
  intro x hx
  rw [robustFeas_iff] at hx
  revert hx
  revert x
  decide

/-- C6 (counterexample): the deterministic set-covering minimum for the
shipped data is 30 — demand F is covered only by site F, so {A,D} is not a
cover; {A,E,F} is optimal — hence the minimum is not 20. -/
theorem scp_example_counterexample :
    IsLeast detCostSet 30 ∧ (30:ℚ) ≠ 20 := by
  refine ⟨⟨scp_mem30, ?_⟩, by norm_num⟩
  rintro c ⟨x, hx, rfl⟩
  exact det_lb x hx

/-- C6 (amended): the deterministic minimum cost is 30 (attained by sites
{A,E,F}), and with `delta = 0.5` the discounted model is infeasible — its
reported-cost set is empty — so it never reports a cost below the
deterministic minimum. -/
theorem scp_example_amended :
    IsLeast detCostSet 30 ∧ robustCostSet = ∅ := by
  refine ⟨⟨scp_mem30, ?_⟩, ?_⟩
  · rintro c ⟨x, hx, rfl⟩
    exact det_lb x hx
  · refine Set.eq_empty_iff_forall_not_mem.2 ?_
    rintro c ⟨x, hx, _⟩
    exact robust_infeasible x hx

/-- C7: the discounted coverage constraint of demand node F,
`(1 - delta)·x_F ≥ 1`, is unsatisfiable by any binary assignment (its
left-hand side is at most 0.5), and the robust model's feasible set is
empty: solving can only report infeasibility. -/
theorem robust_scp_unsatisfiable :
    (∀ x : Fin 6 → Bool,
      ¬ 1 ≤ ((cover 5).map fun j => (1 - delta) * bqval (x j)).sum) ∧
    {x : Fin 6 → Bool | RobustFeas x} = ∅ := by
  constructor
  · intro x h
    rw [list_sum_half] at h
    have hc : ((cover 5).countP fun j => x j) ≤ 1 := by
      rw [show cover 5 = ([5] : List (Fin 6)) from rfl]
      exact List.countP_le_length _
    have : ((((cover 5).countP fun j => x j : ℕ)) : ℚ) ≤ 1 := by exact_mod_cast hc
    linarith
  · exact Set.eq_empty_iff_forall_not_mem.2 fun x hx => robust_infeasible x hx

end SetCovering

namespace Extraction

/-- P-median reporting: a facility or assignment is selected iff its solver
value strictly exceeds 0.5 (`pulp.value(x[j]) > 0.5`, P-median.py lines
89, 93, 150 and 154). -/
def pmedianSelected (v : ℝ) : Prop := 0.5 < v

/-- Knapsack.py reporting (line 84): an item is printed iff
`x[i].varValue == 1`. -/
def knapsackSelected (v : ℝ) : Prop := v = 1

/-- Set_covering.py reporting (lines 92–93 and 120–121): a site is printed
iff `x[j].value() == 1`. -/
def scpSelected (v : ℝ) : Prop := v = 1

/-- Follows the spec's words, for comparison with the source: a decision
variable is classified selected exactly when its value is strictly greater
than 0.5. -/
def specSelected (v : ℝ) : Prop := 0.5 < v

/-- C10 (counterexample): at solver value 0.75 the claimed rule selects,
but the extraction loops of Knapsack.py and Set_covering.py do not — they
test equality with 1, not `> 0.5`. -/
theorem threshold_counterexample :
    specSelected 0.75 ∧ ¬ knapsackSelected 0.75 ∧ ¬ scpSelected 0.75 := by
  refine ⟨?_, ?_, ?_⟩ <;> norm_num [specSelected, knapsackSelected, scpSelected]

/-- C10 (amended): only the p-median extraction classifies by the spec's
strictly-greater-than-0.5 rule; the Knapsack and Set-Covering extraction
loops classify by equality with 1, which does not coincide with that
rule. -/
theorem threshold_amended :
    (∀ v, pmedianSelected v ↔ specSelected v) ∧
      ¬ (∀ v, knapsackSelected v ↔ specSelected v) ∧
      ¬ (∀ v, scpSelected v ↔ specSelected v) := by
  refine ⟨fun v => Iff.rfl, fun h => ?_, fun h => ?_⟩
  · have := (h 0.75).2 (by norm_num [specSelected])
    norm_num [knapsackSelected] at this
  · have := (h 0.75).2 (by norm_num [specSelected])
    norm_num [scpSelected] at this

end Extraction

end RobustOpt
